import Mathlib

/-!
# AEF semantic validator — shallow embedding

This file embeds the AEF (Agent Event Format) entry model (`src/types.ts`)
and the semantic validation engine (`src/semantic-validator.ts`) into Lean,
and proves the cross-entry validation properties stated in the design
specification against that embedding.

Modelling conventions:
* A JavaScript value that may be `undefined` is an `Option`.
* The `error` payload of a `tool.result` entry is `Option ToolError`, where
  `ToolError.message` is `some s` exactly when the `message` field holds a
  string `s` (so `none` covers both an absent and a non-string field, the
  two cases `typeof e.message !== 'string'` accepts).
* JavaScript string truthiness (`if (entry.pid)`, `if (callId)`) is modelled
  explicitly: a present empty string is falsy and skipped, as in the source.
* A `Map` is modelled by the lookup function it realises: `Map.set` in a
  left-to-right pass makes `get` return the *last* binding of a key, so
  `entryById` looks up the last occurrence; a `Set` is a list used only
  through membership.
* Human-readable messages are modelled structurally: `ErrMsg` records which
  message template the source instantiates and the values interpolated into
  it (positions, sequence numbers, session ids).
-/

namespace AEF

/-- The `error` object of a `tool.result` entry: `message` is `some s` iff
the field is present and holds a string. -/
structure ToolError where
  message : Option String
deriving DecidableEq, Repr, Inhabited

/-- Base AEF entry (`AEFEntry` in `src/types.ts`), extended with the
type-specific fields the semantic validator reads on `tool.call` /
`tool.result` entries (`call_id`, `success`, `error`, presence of `result`). -/
structure AEFEntry where
  id : String
  ts : Int
  type : String
  sid : String
  pid : Option String := none
  seq : Option Int := none
  deps : List String := []
  call_id : Option String := none
  success : Option Bool := none
  error : Option ToolError := none
  hasResult : Bool := false
deriving DecidableEq, Repr, Inhabited

/-- Structured rendering of the message templates of
`src/semantic-validator.ts`: constructor = template, arguments = the values
interpolated into the template. -/
inductive ErrMsg where
  | sessionStartFirst (sid foundType : String)
  | sessionEndLast (sid foundType : String)
  | sessionInterleaved (sid : String) (interleaved : List String)
  | seqNonMonotonic (sid : String) (prev cur : Int)
  | callIdNoMatch (callId : String)
  | errorRequired
  | pidNonExistent (pid : String)
  | pidFuture (pid : String)
  | pidDifferentSession
  | depNonExistent (depId : String)
  | depFuture (depId : String)
  | depDifferentSession (depId : String)
  | tsDecreased (sid : String) (prev cur : Int)
  | duplicateId (id : String) (prevPos pos : Nat)
  | resultExpected
deriving DecidableEq, Repr

/-- `SemanticError` of `src/semantic-validator.ts` (also used for warnings,
as `SemanticWarning extends SemanticError`). -/
structure SemanticError where
  rule : String
  msg : ErrMsg
  specRef : String
  entryIds : List String
deriving DecidableEq, Repr

/-- `SemanticValidationResult` of `src/semantic-validator.ts`. -/
structure SemanticValidationResult where
  valid : Bool
  errors : List SemanticError
  warnings : List SemanticError
deriving DecidableEq, Repr

/-- Pair each element with its position, starting at `n`. -/
def enumFrom (n : Nat) : List α → List (Nat × α)
  | [] => []
  | x :: xs => (n, x) :: enumFrom (n + 1) xs

/-- `entries[i]` (indexes produced by the validator are always in range;
out-of-range reads return the default entry). -/
def getE (entries : List AEFEntry) (i : Nat) : AEFEntry :=
  entries.getD i default

/-- The `entryById` index: `Map.set` is called left to right over the list,
so a lookup returns the entry and position of the *last* occurrence of the
id. -/
def entryById (entries : List AEFEntry) (key : String) : Option (AEFEntry × Nat) :=
  ((enumFrom 0 entries).reverse.find? (fun p => p.2.id == key)).map (fun p => (p.2, p.1))

/-- The document positions of the entries of session `sid`, in document
order (`sessionEntries.get(sid)` in the source). -/
def sessionIdxs (entries : List AEFEntry) (sid : String) : List Nat :=
  ((enumFrom 0 entries).filter (fun p => p.2.sid == sid)).map Prod.fst

/-- Keep the first occurrence of each element (insertion-order iteration of
a JavaScript `Map` / `Set`). -/
def firstOccAux : List String → List String → List String
  | [], _ => []
  | s :: rest, seen =>
    if s ∈ seen then firstOccAux rest seen else s :: firstOccAux rest (s :: seen)

/-- The distinct session ids of the list, in order of first appearance
(the iteration order of the `sessionEntries` map). -/
def sessionIdsInOrder (entries : List AEFEntry) : List String :=
  firstOccAux (entries.map (·.sid)) []

/-- `validateSessionBoundaries`, contribution of one session: if a
`session.start` entry exists anywhere in the session it must be first, if a
`session.end` exists it must be last. -/
def boundaryErrorsFor (entries : List AEFEntry) (sid : String) : List SemanticError :=
  match sessionIdxs entries sid with
  | [] => []
  | i0 :: rest =>
    let idxs := i0 :: rest
    let firstEntry := getE entries i0
    let lastEntry := getE entries (idxs.getLastD 0)
    let hasStart := idxs.any (fun i => (getE entries i).type == "session.start")
    let hasEnd := idxs.any (fun i => (getE entries i).type == "session.end")
    let startErrs :=
      if hasStart && !(firstEntry.type == "session.start") then
        let startEntry :=
          getE entries ((idxs.find? (fun i => (getE entries i).type == "session.start")).getD 0)
        [{ rule := "session-start-first",
           msg := .sessionStartFirst sid firstEntry.type,
           specRef := "§3.1.4",
           entryIds := [startEntry.id, firstEntry.id] }]
      else []
    let endErrs :=
      if hasEnd && !(lastEntry.type == "session.end") then
        let endEntry :=
          getE entries ((idxs.find? (fun i => (getE entries i).type == "session.end")).getD 0)
        [{ rule := "session-end-last",
           msg := .sessionEndLast sid lastEntry.type,
           specRef := "§3.1.4",
           entryIds := [endEntry.id, lastEntry.id] }]
      else []
    startErrs ++ endErrs

/-- `validateSessionBoundaries` of `src/semantic-validator.ts`. -/
def validateSessionBoundaries (entries : List AEFEntry) : List SemanticError :=
  (sessionIdsInOrder entries).flatMap (boundaryErrorsFor entries)

/-- The distinct session ids, other than `sid`, of the entries in positions
`[expected, actual)`, in order of first appearance (the `interleaved` set). -/
def interleavedSids (entries : List AEFEntry) (sid : String) (expected actual : Nat) : List String :=
  firstOccAux
    (((List.range' expected (actual - expected)).map (fun j => (getE entries j).sid)).filter
      (fun s => !(s == sid))) []

/-- The gap-scanning loop of `validateSessionContiguity`: walk consecutive
position pairs, report the first gap containing a foreign entry, then stop. -/
def contigScan (entries : List AEFEntry) (sid : String) : List (Nat × Nat) → List SemanticError
  | [] => []
  | (prev, actual) :: rest =>
    let expected := prev + 1
    if actual != expected then
      let interleaved := interleavedSids entries sid expected actual
      if !interleaved.isEmpty then
        [{ rule := "session-contiguous",
           msg := .sessionInterleaved sid interleaved,
           specRef := "§3.1.4",
           entryIds := [(getE entries prev).id, (getE entries actual).id] }]
      else contigScan entries sid rest
    else contigScan entries sid rest

/-- `validateSessionContiguity`, contribution of one session. -/
def contiguityErrorsFor (entries : List AEFEntry) (sid : String) : List SemanticError :=
  let idxs := sessionIdxs entries sid
  if idxs.length ≤ 1 then []
  else contigScan entries sid (idxs.zip idxs.tail)

/-- `validateSessionContiguity` of `src/semantic-validator.ts`. -/
def validateSessionContiguity (entries : List AEFEntry) : List SemanticError :=
  (sessionIdsInOrder entries).flatMap (contiguityErrorsFor entries)

/-- The per-session loop of `validateSeqMonotonicity`: `last` carries
`(lastSeq, lastSeqEntryId)`; entries without `seq` are skipped. -/
def seqScan (entries : List AEFEntry) (sid : String) :
    List Nat → Option (Int × String) → List SemanticError
  | [], _ => []
  | i :: rest, last =>
    let entry := getE entries i
    match entry.seq with
    | none => seqScan entries sid rest last
    | some q =>
      (match last with
       | some (ls, lid) =>
         if q ≤ ls then
           [{ rule := "seq-monotonic",
              msg := .seqNonMonotonic sid ls q,
              specRef := "§3.2.1",
              entryIds := [lid, entry.id] }]
         else []
       | none => []) ++ seqScan entries sid rest (some (q, entry.id))

/-- `validateSeqMonotonicity`, contribution of one session. -/
def seqErrorsFor (entries : List AEFEntry) (sid : String) : List SemanticError :=
  seqScan entries sid (sessionIdxs entries sid) none

/-- `validateSeqMonotonicity` of `src/semantic-validator.ts`. -/
def validateSeqMonotonicity (entries : List AEFEntry) : List SemanticError :=
  (sessionIdsInOrder entries).flatMap (seqErrorsFor entries)

/-- The `callIds` collection of `validateToolCorrelation`: `call_id` values
of `tool.call` entries, skipping falsy (absent or empty) ones; the
JavaScript `Set` is used only through membership, so a list suffices. -/
def toolCallIds (entries : List AEFEntry) : List String :=
  entries.filterMap (fun e =>
    if e.type == "tool.call" then
      match e.call_id with
      | some c => if c == "" then none else some c
      | none => none
    else none)

/-- The per-entry check of `validateToolCorrelation`: a `tool.result` with a
truthy `call_id` not among the collected `tool.call` ids is an error. -/
def toolCorrAt (entries : List AEFEntry) (e : AEFEntry) : List SemanticError :=
  if e.type == "tool.result" then
    match e.call_id with
    | some c =>
      if c == "" then []
      else if !(toolCallIds entries).contains c then
        [{ rule := "call-id-match",
           msg := .callIdNoMatch c,
           specRef := "§4.4/§4.5",
           entryIds := [e.id] }]
      else []
    | none => []
  else []

/-- `validateToolCorrelation` of `src/semantic-validator.ts`. -/
def validateToolCorrelation (entries : List AEFEntry) : List SemanticError :=
  entries.flatMap (toolCorrAt entries)

/-- The per-entry check of `validateErrorRequired`: emits iff the entry is a
`tool.result` with `success === false` and `error` is absent or its
`message` is not a string. -/
def errorRequiredAt (e : AEFEntry) : List SemanticError :=
  if e.type == "tool.result" && e.success == some false then
    if (match e.error with
        | none => true
        | some te => te.message.isNone) then
      [{ rule := "error-required",
         msg := .errorRequired,
         specRef := "§4.5",
         entryIds := [e.id] }]
    else []
  else []

/-- `validateErrorRequired` of `src/semantic-validator.ts`. -/
def validateErrorRequired (entries : List AEFEntry) : List SemanticError :=
  entries.flatMap errorRequiredAt

/-- The per-entry check of `validatePidExists`: skip falsy `pid` (absent or
empty), then test existence, then future reference, then session match. -/
def pidErrorsAt (entries : List AEFEntry) (i : Nat) (e : AEFEntry) : List SemanticError :=
  match e.pid with
  | none => []
  | some p =>
    if p == "" then []
    else
      match entryById entries p with
      | none =>
        [{ rule := "pid-exists",
           msg := .pidNonExistent p,
           specRef := "§6.2",
           entryIds := [e.id] }]
      | some (parent, j) =>
        if i ≤ j then
          [{ rule := "pid-exists",
             msg := .pidFuture p,
             specRef := "§6.2",
             entryIds := [e.id, p] }]
        else if !(parent.sid == e.sid) then
          [{ rule := "pid-same-session",
             msg := .pidDifferentSession,
             specRef := "§3.1.4",
             entryIds := [e.id, p] }]
        else []

/-- `validatePidExists` of `src/semantic-validator.ts`. -/
def validatePidExists (entries : List AEFEntry) : List SemanticError :=
  (enumFrom 0 entries).flatMap (fun p => pidErrorsAt entries p.1 p.2)

/-- The per-dependency check of `validateDepsExist`: existence, then future
reference, then session match, for one id of an entry's `deps` list. -/
def depErrorAt (entries : List AEFEntry) (i : Nat) (e : AEFEntry) (depId : String) :
    List SemanticError :=
  match entryById entries depId with
  | none =>
    [{ rule := "deps-exist",
       msg := .depNonExistent depId,
       specRef := "§6.2",
       entryIds := [e.id] }]
  | some (dep, j) =>
    if i ≤ j then
      [{ rule := "deps-exist",
         msg := .depFuture depId,
         specRef := "§6.2",
         entryIds := [e.id, depId] }]
    else if !(dep.sid == e.sid) then
      [{ rule := "deps-same-session",
         msg := .depDifferentSession depId,
         specRef := "§3.1.4",
         entryIds := [e.id, depId] }]
    else []

/-- `validateDepsExist` of `src/semantic-validator.ts` (the guard skipping
absent or empty `deps` lists is the identity on the produced errors). -/
def validateDepsExist (entries : List AEFEntry) : List SemanticError :=
  (enumFrom 0 entries).flatMap (fun p => p.2.deps.flatMap (depErrorAt entries p.1 p.2))

/-- The per-session loop of `validateTimestampMonotonicity` (warning rule):
`last` carries `(lastTs, lastTsEntryId)`; every entry has a timestamp. -/
def tsScan (entries : List AEFEntry) (sid : String) :
    List Nat → Option (Int × String) → List SemanticError
  | [], _ => []
  | i :: rest, last =>
    let entry := getE entries i
    (match last with
     | some (lts, lid) =>
       if entry.ts < lts then
         [{ rule := "ts-monotonic",
            msg := .tsDecreased sid lts entry.ts,
            specRef := "§3.1.2",
            entryIds := [lid, entry.id] }]
       else []
     | none => []) ++ tsScan entries sid rest (some (entry.ts, entry.id))

/-- `validateTimestampMonotonicity` of `src/semantic-validator.ts`. -/
def validateTimestampMonotonicity (entries : List AEFEntry) : List SemanticError :=
  (sessionIdsInOrder entries).flatMap (fun sid => tsScan entries sid (sessionIdxs entries sid) none)

/-- The loop of `validateIdUniqueness`: `seen` is the association list of
the `seen` map, most recent binding first (`Map.set` overwrites). -/
def idUniqLoop : List AEFEntry → Nat → List (String × Nat) → List SemanticError
  | [], _, _ => []
  | e :: rest, i, seen =>
    (match seen.lookup e.id with
     | some prev =>
       [{ rule := "id-unique",
          msg := .duplicateId e.id prev i,
          specRef := "§3.1.1",
          entryIds := [e.id] }]
     | none => []) ++ idUniqLoop rest (i + 1) ((e.id, i) :: seen)

/-- `validateIdUniqueness` of `src/semantic-validator.ts` (warning rule). -/
def validateIdUniqueness (entries : List AEFEntry) : List SemanticError :=
  idUniqLoop entries 0 []

/-- The per-entry check of `validateResultExpected` (warning rule). -/
def resultExpectedAt (e : AEFEntry) : List SemanticError :=
  if e.type == "tool.result" && e.success == some true && !e.hasResult then
    [{ rule := "result-expected",
       msg := .resultExpected,
       specRef := "§4.5",
       entryIds := [e.id] }]
  else []

/-- `validateResultExpected` of `src/semantic-validator.ts` (warning rule). -/
def validateResultExpected (entries : List AEFEntry) : List SemanticError :=
  entries.flatMap resultExpectedAt

/-- `validateSemantics` of `src/semantic-validator.ts`: empty input short
circuits to a valid result; otherwise run the seven MUST rules into
`errors` and the three SHOULD rules into `warnings`, in call order. -/
def validateSemantics (entries : List AEFEntry) : SemanticValidationResult :=
  if entries.length = 0 then { valid := true, errors := [], warnings := [] }
  else
    let errors :=
      validateSessionBoundaries entries ++ validateSessionContiguity entries ++
      validateSeqMonotonicity entries ++ validateToolCorrelation entries ++
      validateErrorRequired entries ++ validatePidExists entries ++ validateDepsExist entries
    let warnings :=
      validateTimestampMonotonicity entries ++ validateIdUniqueness entries ++
      validateResultExpected entries
    { valid := errors.isEmpty, errors := errors, warnings := warnings }

/-- `CORE_TYPES` of `src/types.ts`. -/
def CORE_TYPES : List String :=
  ["session.start", "session.end", "message", "tool.call", "tool.result", "error"]

/-- `isCoreEntry` of `src/types.ts`. -/
def isCoreEntry (e : AEFEntry) : Bool :=
  CORE_TYPES.contains e.type

/-- Number of `.` characters in a string (`entry.type.match(/\./g).length`). -/
def dotCount (s : String) : Nat :=
  (s.toList.filter (fun c => c == '.')).length

/-- `isExtensionEntry` of `src/types.ts`: at least 2 dots and not a core
type; no constraint on the characters of the segments. -/
def isExtensionEntry (e : AEFEntry) : Bool :=
  decide (2 ≤ dotCount e.type) && !isCoreEntry e

/-! ## Lemmas about the position and index helpers -/

theorem enumFrom_length (n : Nat) (l : List α) : (enumFrom n l).length = l.length := by
  induction l generalizing n with
  | nil => rfl
  | cons x xs ih => simp [enumFrom, ih]

theorem mem_enumFrom {p : Nat × α} {n : Nat} {l : List α} :
    p ∈ enumFrom n l ↔ n ≤ p.1 ∧ l[p.1 - n]? = some p.2 := by
  induction l generalizing n with
  | nil => simp [enumFrom]
  | cons x xs ih =>
    simp only [enumFrom, List.mem_cons, ih]
    constructor
    · rintro (rfl | ⟨h1, h2⟩)
      · simp
      · refine ⟨by omega, ?_⟩
        have hd : p.1 - n = (p.1 - (n + 1)) + 1 := by omega
        rw [hd]
        simpa using h2
    · rintro ⟨h1, h2⟩
      rcases Nat.eq_or_lt_of_le h1 with heq | hlt
      · left
        have hd : p.1 - n = 0 := by omega
        rw [hd] at h2
        simp at h2
        cases p
        simp_all
      · right
        refine ⟨by omega, ?_⟩
        have hd : p.1 - n = (p.1 - (n + 1)) + 1 := by omega
        rw [hd] at h2
        simpa using h2

theorem enumFrom_append (n : Nat) (l₁ l₂ : List α) :
    enumFrom n (l₁ ++ l₂) = enumFrom n l₁ ++ enumFrom (n + l₁.length) l₂ := by
  induction l₁ generalizing n with
  | nil => simp [enumFrom]
  | cons x xs ih =>
    simp only [List.cons_append, List.append_eq, enumFrom, ih, List.length_cons]
    have hl : n + 1 + xs.length = n + (xs.length + 1) := by omega
    rw [hl]

theorem getE_eq {entries : List AEFEntry} {i : Nat} {e : AEFEntry}
    (h : entries[i]? = some e) : getE entries i = e := by
  simp [getE, List.getD_eq_getElem?_getD, h]

theorem entryById_concat (pre : List AEFEntry) (a : AEFEntry) (key : String) :
    entryById (pre ++ [a]) key =
      if a.id = key then some (a, pre.length) else entryById pre key := by
  unfold entryById
  rw [enumFrom_append]
  by_cases h : a.id = key <;>
    simp [enumFrom, List.find?_cons, h]

theorem entryById_eq_none_iff {entries : List AEFEntry} {key : String} :
    entryById entries key = none ↔ ∀ x ∈ entries, ¬ x.id = key := by
  induction entries using List.reverseRecOn with
  | nil => simp [entryById, enumFrom]
  | append_singleton pre a ih =>
    rw [entryById_concat]
    by_cases h : a.id = key
    · rw [if_pos h]
      constructor
      · intro habs
        simp at habs
      · intro hall
        exact absurd h (hall a (by simp))
    · rw [if_neg h, ih]
      constructor
      · intro hall x hx
        rcases List.mem_append.mp hx with hx | hx
        · exact hall x hx
        · have hxa := List.mem_singleton.mp hx
          subst hxa
          exact h
      · intro hall x hx
        exact hall x (List.mem_append.mpr (Or.inl hx))

theorem entryById_eq_some_iff {entries : List AEFEntry} {key : String} {e : AEFEntry} {j : Nat} :
    entryById entries key = some (e, j) ↔
      (entries[j]? = some e ∧ e.id = key ∧
        ∀ k x, j < k → entries[k]? = some x → ¬ x.id = key) := by
  induction entries using List.reverseRecOn with
  | nil => simp [entryById, enumFrom]
  | append_singleton pre a ih =>
    rw [entryById_concat]
    by_cases h : a.id = key
    · simp only [h, if_pos]
      constructor
      · rintro heq
        rw [Option.some_inj, Prod.mk.injEq] at heq
        obtain ⟨rfl, rfl⟩ := heq
        refine ⟨by simp, h, ?_⟩
        intro k x hk hx
        have : k < pre.length + 1 := by
          have := (List.getElem?_eq_some.mp hx).1
          simpa using this
        omega
      · rintro ⟨hj, hk, hmax⟩
        rcases Nat.lt_trichotomy j pre.length with hlt | rfl | hgt
        · exact absurd h (hmax pre.length a hlt (by simp))
        · have : a = e := by
            have := hj
            rw [List.getElem?_append_right (Nat.le_refl _)] at this
            simpa using this
          simp [this]
        · have : j < pre.length + 1 := by
            have := (List.getElem?_eq_some.mp hj).1
            simpa using this
          omega
    · simp only [h, if_neg, Ne, not_false_iff]
      rw [ih]
      constructor
      · rintro ⟨hj, hk, hmax⟩
        have hjlt : j < pre.length := (List.getElem?_eq_some.mp hj).1
        refine ⟨by rw [List.getElem?_append_left hjlt]; exact hj, hk, ?_⟩
        intro k x hlt hx
        rcases Nat.lt_trichotomy k pre.length with h1 | rfl | h1
        · exact hmax k x hlt (by rwa [List.getElem?_append_left h1] at hx)
        · have hxa : a = x := by
            rw [List.getElem?_append_right (Nat.le_refl _)] at hx
            simpa using hx
          rw [← hxa]
          exact h
        · have : k < pre.length + 1 := by
            have := (List.getElem?_eq_some.mp hx).1
            simpa using this
          omega
      · rintro ⟨hj, hk, hmax⟩
        have hjlt : j < pre.length + 1 := by
          have := (List.getElem?_eq_some.mp hj).1
          simpa using this
        have hjne : j ≠ pre.length := by
          rintro rfl
          have : a = e := by
            rw [List.getElem?_append_right (Nat.le_refl _)] at hj
            simpa using hj
          exact h (this ▸ hk)
        have hjlt' : j < pre.length := by omega
        refine ⟨by rwa [List.getElem?_append_left hjlt'] at hj, hk, ?_⟩
        intro k x hlt hx
        have hklt : k < pre.length := (List.getElem?_eq_some.mp hx).1
        exact hmax k x hlt (by rw [List.getElem?_append_left hklt]; exact hx)

theorem mem_sessionIdxs {entries : List AEFEntry} {sid : String} {j : Nat} :
    j ∈ sessionIdxs entries sid ↔ ∃ e, entries[j]? = some e ∧ e.sid = sid := by
  unfold sessionIdxs
  simp only [List.mem_map, List.mem_filter]
  constructor
  · rintro ⟨⟨i, e⟩, ⟨hm, hf⟩, rfl⟩
    have hme := mem_enumFrom.mp hm
    exact ⟨e, by simpa using hme.2, by simpa using hf⟩
  · rintro ⟨e, hj, hsid⟩
    exact ⟨(j, e), ⟨mem_enumFrom.mpr ⟨Nat.zero_le _, by simpa using hj⟩, by simpa using hsid⟩, rfl⟩

theorem sessionIdxs_lt_length {entries : List AEFEntry} {sid : String} {j : Nat}
    (h : j ∈ sessionIdxs entries sid) : j < entries.length := by
  obtain ⟨e, hj, _⟩ := mem_sessionIdxs.mp h
  exact (List.getElem?_eq_some.mp hj).1

theorem enumFrom_pairwise (n : Nat) (l : List α) :
    List.Pairwise (fun p q => p.1 < q.1) (enumFrom n l) := by
  induction l generalizing n with
  | nil => simp [enumFrom]
  | cons x xs ih =>
    simp only [enumFrom, List.pairwise_cons]
    refine ⟨fun q hq => ?_, ih (n + 1)⟩
    have := (mem_enumFrom.mp hq).1
    omega

theorem sessionIdxs_sorted (entries : List AEFEntry) (sid : String) :
    List.Pairwise (· < ·) (sessionIdxs entries sid) := by
  unfold sessionIdxs
  exact List.pairwise_map.mpr ((enumFrom_pairwise 0 entries).sublist (List.filter_sublist _))

theorem mem_firstOccAux {l seen : List String} {s : String} :
    s ∈ firstOccAux l seen ↔ s ∈ l ∧ s ∉ seen := by
  induction l generalizing seen with
  | nil => simp [firstOccAux]
  | cons x xs ih =>
    by_cases hx : x ∈ seen
    · rw [firstOccAux, if_pos hx, ih]
      constructor
      · rintro ⟨h1, h2⟩
        exact ⟨List.mem_cons_of_mem _ h1, h2⟩
      · rintro ⟨h1, h2⟩
        rcases List.mem_cons.mp h1 with rfl | h1
        · exact absurd hx h2
        · exact ⟨h1, h2⟩
    · rw [firstOccAux, if_neg hx]
      simp only [List.mem_cons, ih, List.mem_cons]
      constructor
      · rintro (rfl | ⟨h1, h2⟩)
        · exact ⟨Or.inl rfl, hx⟩
        · refine ⟨Or.inr h1, fun hs => h2 (Or.inr hs)⟩
      · rintro ⟨rfl | h1, h2⟩
        · exact Or.inl rfl
        · by_cases hsx : s = x
          · exact Or.inl hsx
          · exact Or.inr ⟨h1, fun hs => hs.elim hsx h2⟩

theorem firstOccAux_eq_nil {l seen : List String} :
    firstOccAux l seen = [] ↔ ∀ s ∈ l, s ∈ seen := by
  induction l generalizing seen with
  | nil => simp [firstOccAux]
  | cons x xs ih =>
    by_cases hx : x ∈ seen
    · rw [firstOccAux, if_pos hx, ih]
      constructor
      · intro h s hs
        rcases List.mem_cons.mp hs with rfl | hs
        · exact hx
        · exact h s hs
      · intro h s hs
        exact h s (List.mem_cons_of_mem _ hs)
    · rw [firstOccAux, if_neg hx]
      simp only [List.cons_ne_nil, false_iff]
      intro h
      exact hx (h x (List.mem_cons_self _ _))

theorem mem_sessionIdsInOrder {entries : List AEFEntry} {sid : String} :
    sid ∈ sessionIdsInOrder entries ↔ ∃ e ∈ entries, e.sid = sid := by
  unfold sessionIdsInOrder
  rw [mem_firstOccAux]
  simp [List.mem_map, eq_comm]

/-! ## Which rule identifier each validation pass can produce -/

theorem rules_boundaries {entries : List AEFEntry} {x : SemanticError}
    (h : x ∈ validateSessionBoundaries entries) :
    x.rule = "session-start-first" ∨ x.rule = "session-end-last" := by
  unfold validateSessionBoundaries at h
  obtain ⟨sid, _, h⟩ := List.mem_flatMap.mp h
  unfold boundaryErrorsFor at h
  split at h
  · simp at h
  · dsimp only at h
    rcases List.mem_append.mp h with h | h <;> split at h <;> simp_all

theorem rules_contigScan {entries : List AEFEntry} {sid : String} {pairs : List (Nat × Nat)}
    {x : SemanticError} (h : x ∈ contigScan entries sid pairs) :
    x.rule = "session-contiguous" := by
  induction pairs with
  | nil => simp [contigScan] at h
  | cons p rest ih =>
    obtain ⟨a, b⟩ := p
    unfold contigScan at h
    dsimp only at h
    split at h
    · split at h
      · simp_all
      · exact ih h
    · exact ih h

theorem rules_contiguity {entries : List AEFEntry} {x : SemanticError}
    (h : x ∈ validateSessionContiguity entries) : x.rule = "session-contiguous" := by
  unfold validateSessionContiguity at h
  obtain ⟨sid, _, h⟩ := List.mem_flatMap.mp h
  unfold contiguityErrorsFor at h
  dsimp only at h
  split at h
  · simp at h
  · exact rules_contigScan h

theorem rules_seqScan {entries : List AEFEntry} {sid : String} {idxs : List Nat}
    {last : Option (Int × String)} {x : SemanticError}
    (h : x ∈ seqScan entries sid idxs last) : x.rule = "seq-monotonic" := by
  induction idxs generalizing last with
  | nil => simp [seqScan] at h
  | cons i rest ih =>
    unfold seqScan at h
    dsimp only at h
    split at h
    · exact ih h
    · rcases List.mem_append.mp h with h | h
      · split at h
        · split at h <;> simp_all
        · simp at h
      · exact ih h

theorem rules_seq {entries : List AEFEntry} {x : SemanticError}
    (h : x ∈ validateSeqMonotonicity entries) : x.rule = "seq-monotonic" := by
  unfold validateSeqMonotonicity at h
  obtain ⟨sid, _, h⟩ := List.mem_flatMap.mp h
  exact rules_seqScan h

theorem rules_toolCorr {entries : List AEFEntry} {x : SemanticError}
    (h : x ∈ validateToolCorrelation entries) : x.rule = "call-id-match" := by
  unfold validateToolCorrelation at h
  obtain ⟨e, _, h⟩ := List.mem_flatMap.mp h
  unfold toolCorrAt at h
  split at h
  · split at h
    · split at h
      · simp at h
      · split at h <;> simp_all
    · simp at h
  · simp at h

theorem rules_errorRequired {entries : List AEFEntry} {x : SemanticError}
    (h : x ∈ validateErrorRequired entries) : x.rule = "error-required" := by
  unfold validateErrorRequired at h
  obtain ⟨e, _, h⟩ := List.mem_flatMap.mp h
  unfold errorRequiredAt at h
  split at h
  · split at h <;> simp_all
  · simp at h

theorem rules_pidErrorsAt {entries : List AEFEntry} {i : Nat} {e : AEFEntry} {x : SemanticError}
    (h : x ∈ pidErrorsAt entries i e) :
    x.rule = "pid-exists" ∨ x.rule = "pid-same-session" := by
  unfold pidErrorsAt at h
  split at h
  · simp at h
  · split at h
    · simp at h
    · split at h
      · simp_all
      · split at h
        · simp_all
        · split at h <;> simp_all

theorem rules_pid {entries : List AEFEntry} {x : SemanticError}
    (h : x ∈ validatePidExists entries) :
    x.rule = "pid-exists" ∨ x.rule = "pid-same-session" := by
  unfold validatePidExists at h
  obtain ⟨p, _, h⟩ := List.mem_flatMap.mp h
  exact rules_pidErrorsAt h

theorem rules_depErrorAt {entries : List AEFEntry} {i : Nat} {e : AEFEntry} {d : String}
    {x : SemanticError} (h : x ∈ depErrorAt entries i e d) :
    x.rule = "deps-exist" ∨ x.rule = "deps-same-session" := by
  unfold depErrorAt at h
  split at h
  · simp_all
  · split at h
    · simp_all
    · split at h <;> simp_all

theorem rules_deps {entries : List AEFEntry} {x : SemanticError}
    (h : x ∈ validateDepsExist entries) :
    x.rule = "deps-exist" ∨ x.rule = "deps-same-session" := by
  unfold validateDepsExist at h
  obtain ⟨p, _, h⟩ := List.mem_flatMap.mp h
  obtain ⟨d, _, h⟩ := List.mem_flatMap.mp h
  exact rules_depErrorAt h

theorem rules_tsScan {entries : List AEFEntry} {sid : String} {idxs : List Nat}
    {last : Option (Int × String)} {x : SemanticError}
    (h : x ∈ tsScan entries sid idxs last) : x.rule = "ts-monotonic" := by
  induction idxs generalizing last with
  | nil => simp [tsScan] at h
  | cons i rest ih =>
    unfold tsScan at h
    dsimp only at h
    rcases List.mem_append.mp h with h | h
    · split at h
      · split at h <;> simp_all
      · simp at h
    · exact ih h

theorem rules_ts {entries : List AEFEntry} {x : SemanticError}
    (h : x ∈ validateTimestampMonotonicity entries) : x.rule = "ts-monotonic" := by
  unfold validateTimestampMonotonicity at h
  obtain ⟨sid, _, h⟩ := List.mem_flatMap.mp h
  exact rules_tsScan h

theorem rules_idUniqLoop {l : List AEFEntry} {n : Nat} {seen : List (String × Nat)}
    {x : SemanticError} (h : x ∈ idUniqLoop l n seen) : x.rule = "id-unique" := by
  induction l generalizing n seen with
  | nil => simp [idUniqLoop] at h
  | cons e rest ih =>
    unfold idUniqLoop at h
    rcases List.mem_append.mp h with h | h
    · split at h <;> simp_all
    · exact ih h

theorem rules_idUnique {entries : List AEFEntry} {x : SemanticError}
    (h : x ∈ validateIdUniqueness entries) : x.rule = "id-unique" :=
  rules_idUniqLoop h

theorem rules_resultExpected {entries : List AEFEntry} {x : SemanticError}
    (h : x ∈ validateResultExpected entries) : x.rule = "result-expected" := by
  unfold validateResultExpected at h
  obtain ⟨e, _, h⟩ := List.mem_flatMap.mp h
  unfold resultExpectedAt at h
  split at h <;> simp_all

/-! ## Decomposition of `validateSemantics` -/

theorem validateSemantics_errors (entries : List AEFEntry) :
    (validateSemantics entries).errors =
      validateSessionBoundaries entries ++ validateSessionContiguity entries ++
      validateSeqMonotonicity entries ++ validateToolCorrelation entries ++
      validateErrorRequired entries ++ validatePidExists entries ++
      validateDepsExist entries := by
  unfold validateSemantics
  split
  · next hlen =>
    have hnil : entries = [] := List.length_eq_zero.mp hlen
    subst hnil
    rfl
  · rfl

theorem validateSemantics_warnings (entries : List AEFEntry) :
    (validateSemantics entries).warnings =
      validateTimestampMonotonicity entries ++ validateIdUniqueness entries ++
      validateResultExpected entries := by
  unfold validateSemantics
  split
  · next hlen =>
    have hnil : entries = [] := List.length_eq_zero.mp hlen
    subst hnil
    rfl
  · rfl

theorem validateSemantics_valid (entries : List AEFEntry) :
    (validateSemantics entries).valid = (validateSemantics entries).errors.isEmpty := by
  unfold validateSemantics
  split
  · rfl
  · rfl

theorem filter_of_forall_false {l : List SemanticError} {p : SemanticError → Bool}
    (h : ∀ x ∈ l, p x = false) : l.filter p = [] := by
  rw [List.filter_eq_nil_iff]
  intro a ha
  simp [h a ha]

theorem errors_filter_boundaries (entries : List AEFEntry) :
    (validateSemantics entries).errors.filter
        (fun x => x.rule == "session-start-first" || x.rule == "session-end-last") =
      validateSessionBoundaries entries := by
  rw [validateSemantics_errors]
  simp only [List.filter_append]
  rw [List.filter_eq_self.mpr (fun x hx => by rcases rules_boundaries hx with h | h <;> rw [h] <;> rfl),
      filter_of_forall_false (fun x hx => by rw [rules_contiguity hx]; rfl),
      filter_of_forall_false (fun x hx => by rw [rules_seq hx]; rfl),
      filter_of_forall_false (fun x hx => by rw [rules_toolCorr hx]; rfl),
      filter_of_forall_false (fun x hx => by rw [rules_errorRequired hx]; rfl),
      filter_of_forall_false (fun x hx => by rcases rules_pid hx with h | h <;> rw [h] <;> rfl),
      filter_of_forall_false (fun x hx => by rcases rules_deps hx with h | h <;> rw [h] <;> rfl)]
  simp

theorem errors_filter_contiguity (entries : List AEFEntry) :
    (validateSemantics entries).errors.filter (fun x => x.rule == "session-contiguous") =
      validateSessionContiguity entries := by
  rw [validateSemantics_errors]
  simp only [List.filter_append]
  rw [filter_of_forall_false (fun x hx => by rcases rules_boundaries hx with h | h <;> rw [h] <;> rfl),
      List.filter_eq_self.mpr (fun x hx => by rw [rules_contiguity hx]; rfl),
      filter_of_forall_false (fun x hx => by rw [rules_seq hx]; rfl),
      filter_of_forall_false (fun x hx => by rw [rules_toolCorr hx]; rfl),
      filter_of_forall_false (fun x hx => by rw [rules_errorRequired hx]; rfl),
      filter_of_forall_false (fun x hx => by rcases rules_pid hx with h | h <;> rw [h] <;> rfl),
      filter_of_forall_false (fun x hx => by rcases rules_deps hx with h | h <;> rw [h] <;> rfl)]
  simp

theorem errors_filter_seq (entries : List AEFEntry) :
    (validateSemantics entries).errors.filter (fun x => x.rule == "seq-monotonic") =
      validateSeqMonotonicity entries := by
  rw [validateSemantics_errors]
  simp only [List.filter_append]
  rw [filter_of_forall_false (fun x hx => by rcases rules_boundaries hx with h | h <;> rw [h] <;> rfl),
      filter_of_forall_false (fun x hx => by rw [rules_contiguity hx]; rfl),
      List.filter_eq_self.mpr (fun x hx => by rw [rules_seq hx]; rfl),
      filter_of_forall_false (fun x hx => by rw [rules_toolCorr hx]; rfl),
      filter_of_forall_false (fun x hx => by rw [rules_errorRequired hx]; rfl),
      filter_of_forall_false (fun x hx => by rcases rules_pid hx with h | h <;> rw [h] <;> rfl),
      filter_of_forall_false (fun x hx => by rcases rules_deps hx with h | h <;> rw [h] <;> rfl)]
  simp

theorem errors_filter_callId (entries : List AEFEntry) :
    (validateSemantics entries).errors.filter (fun x => x.rule == "call-id-match") =
      validateToolCorrelation entries := by
  rw [validateSemantics_errors]
  simp only [List.filter_append]
  rw [filter_of_forall_false (fun x hx => by rcases rules_boundaries hx with h | h <;> rw [h] <;> rfl),
      filter_of_forall_false (fun x hx => by rw [rules_contiguity hx]; rfl),
      filter_of_forall_false (fun x hx => by rw [rules_seq hx]; rfl),
      List.filter_eq_self.mpr (fun x hx => by rw [rules_toolCorr hx]; rfl),
      filter_of_forall_false (fun x hx => by rw [rules_errorRequired hx]; rfl),
      filter_of_forall_false (fun x hx => by rcases rules_pid hx with h | h <;> rw [h] <;> rfl),
      filter_of_forall_false (fun x hx => by rcases rules_deps hx with h | h <;> rw [h] <;> rfl)]
  simp

theorem errors_filter_errorRequired (entries : List AEFEntry) :
    (validateSemantics entries).errors.filter (fun x => x.rule == "error-required") =
      validateErrorRequired entries := by
  rw [validateSemantics_errors]
  simp only [List.filter_append]
  rw [filter_of_forall_false (fun x hx => by rcases rules_boundaries hx with h | h <;> rw [h] <;> rfl),
      filter_of_forall_false (fun x hx => by rw [rules_contiguity hx]; rfl),
      filter_of_forall_false (fun x hx => by rw [rules_seq hx]; rfl),
      filter_of_forall_false (fun x hx => by rw [rules_toolCorr hx]; rfl),
      List.filter_eq_self.mpr (fun x hx => by rw [rules_errorRequired hx]; rfl),
      filter_of_forall_false (fun x hx => by rcases rules_pid hx with h | h <;> rw [h] <;> rfl),
      filter_of_forall_false (fun x hx => by rcases rules_deps hx with h | h <;> rw [h] <;> rfl)]
  simp

theorem errors_filter_pid (entries : List AEFEntry) :
    (validateSemantics entries).errors.filter
        (fun x => x.rule == "pid-exists" || x.rule == "pid-same-session") =
      validatePidExists entries := by
  rw [validateSemantics_errors]
  simp only [List.filter_append]
  rw [filter_of_forall_false (fun x hx => by rcases rules_boundaries hx with h | h <;> rw [h] <;> rfl),
      filter_of_forall_false (fun x hx => by rw [rules_contiguity hx]; rfl),
      filter_of_forall_false (fun x hx => by rw [rules_seq hx]; rfl),
      filter_of_forall_false (fun x hx => by rw [rules_toolCorr hx]; rfl),
      filter_of_forall_false (fun x hx => by rw [rules_errorRequired hx]; rfl),
      List.filter_eq_self.mpr (fun x hx => by rcases rules_pid hx with h | h <;> rw [h] <;> rfl),
      filter_of_forall_false (fun x hx => by rcases rules_deps hx with h | h <;> rw [h] <;> rfl)]
  simp

theorem errors_filter_deps (entries : List AEFEntry) :
    (validateSemantics entries).errors.filter
        (fun x => x.rule == "deps-exist" || x.rule == "deps-same-session") =
      validateDepsExist entries := by
  rw [validateSemantics_errors]
  simp only [List.filter_append]
  rw [filter_of_forall_false (fun x hx => by rcases rules_boundaries hx with h | h <;> rw [h] <;> rfl),
      filter_of_forall_false (fun x hx => by rw [rules_contiguity hx]; rfl),
      filter_of_forall_false (fun x hx => by rw [rules_seq hx]; rfl),
      filter_of_forall_false (fun x hx => by rw [rules_toolCorr hx]; rfl),
      filter_of_forall_false (fun x hx => by rw [rules_errorRequired hx]; rfl),
      filter_of_forall_false (fun x hx => by rcases rules_pid hx with h | h <;> rw [h] <;> rfl),
      List.filter_eq_self.mpr (fun x hx => by rcases rules_deps hx with h | h <;> rw [h] <;> rfl)]
  simp

theorem warnings_filter_idUnique (entries : List AEFEntry) :
    (validateSemantics entries).warnings.filter (fun x => x.rule == "id-unique") =
      validateIdUniqueness entries := by
  rw [validateSemantics_warnings]
  simp only [List.filter_append]
  rw [filter_of_forall_false (fun x hx => by rw [rules_ts hx]; rfl),
      List.filter_eq_self.mpr (fun x hx => by rw [rules_idUnique hx]; rfl),
      filter_of_forall_false (fun x hx => by rw [rules_resultExpected hx]; rfl)]
  simp

theorem errors_no_idUnique (entries : List AEFEntry) :
    (validateSemantics entries).errors.filter (fun x => x.rule == "id-unique") = [] := by
  rw [validateSemantics_errors]
  simp only [List.filter_append]
  rw [filter_of_forall_false (fun x hx => by rcases rules_boundaries hx with h | h <;> rw [h] <;> rfl),
      filter_of_forall_false (fun x hx => by rw [rules_contiguity hx]; rfl),
      filter_of_forall_false (fun x hx => by rw [rules_seq hx]; rfl),
      filter_of_forall_false (fun x hx => by rw [rules_toolCorr hx]; rfl),
      filter_of_forall_false (fun x hx => by rw [rules_errorRequired hx]; rfl),
      filter_of_forall_false (fun x hx => by rcases rules_pid hx with h | h <;> rw [h] <;> rfl),
      filter_of_forall_false (fun x hx => by rcases rules_deps hx with h | h <;> rw [h] <;> rfl)]
  simp

theorem contains_iff_mem {l : List String} {c : String} : l.contains c = true ↔ c ∈ l := by
  rw [List.contains_iff_exists_mem_beq]
  constructor
  · rintro ⟨a, ha, hb⟩
    rwa [beq_iff_eq.mp hb]
  · intro h
    exact ⟨c, h, by simp⟩

theorem mem_toolCallIds {entries : List AEFEntry} {c : String} :
    c ∈ toolCallIds entries ↔
      (¬ c = "" ∧ ∃ x ∈ entries, x.type = "tool.call" ∧ x.call_id = some c) := by
  unfold toolCallIds
  rw [List.mem_filterMap]
  constructor
  · rintro ⟨e, he, hf⟩
    split at hf
    · next ht =>
      cases hcall : e.call_id with
      | none => rw [hcall] at hf; simp at hf
      | some c2 =>
        rw [hcall] at hf
        dsimp only at hf
        by_cases hc2 : (c2 == "") = true
        · rw [if_pos hc2] at hf
          simp at hf
        · rw [if_neg hc2] at hf
          have hc2c : c2 = c := by simpa using hf
          subst hc2c
          exact ⟨by simpa using hc2, e, he, by simpa using ht, hcall⟩
    · simp at hf
  · rintro ⟨hc, e, he, ht, hcall⟩
    refine ⟨e, he, ?_⟩
    rw [if_pos (by simpa using ht), hcall]
    dsimp only
    rw [if_neg (by simpa using hc)]

/-! ## Claim theorems -/

/-- A `tool.result` entry with `success: true` and no `result` payload: a
log of just this entry gets a `result-expected` warning and no errors. -/
def warnOnlyEntry : AEFEntry :=
  { id := "w1", ts := 0, type := "tool.result", sid := "s1", success := some true }

/-- C7: for every entry list `L`, `validateSemantics(L).valid` is true iff
`validateSemantics(L).errors` is empty; warnings never affect `valid` (a
result with a warning and no errors has `valid = true`, witnessed by
`[warnOnlyEntry]`); and `validateSemantics([])` returns
`{valid: true, errors: [], warnings: []}`. -/
theorem C7_valid_iff_errors_empty :
    (∀ entries : List AEFEntry,
        (validateSemantics entries).valid = true ↔ (validateSemantics entries).errors = [])
    ∧ validateSemantics [] = { valid := true, errors := [], warnings := [] }
    ∧ ((validateSemantics [warnOnlyEntry]).warnings ≠ [] ∧
        (validateSemantics [warnOnlyEntry]).errors = [] ∧
        (validateSemantics [warnOnlyEntry]).valid = true) := by
  refine ⟨fun entries => ?_, rfl, by decide⟩
  rw [validateSemantics_valid, List.isEmpty_iff]

/-- A `tool.result` whose `call_id` matches no `tool.call` in the log. -/
def orphanResult : AEFEntry :=
  { id := "r1", ts := 0, type := "tool.result", sid := "s1",
    call_id := some "tc999", success := some true, hasResult := true }

/-- C4: a `tool.result` entry carrying a (truthy) correlation identifier
yields exactly one `call-id-match` hard error iff no `tool.call` entry in
the full list carries the same `call_id`; a `tool.call` never produces a
correlation error, nor does a `tool.result` without a correlation
identifier; and the `call-id-match` errors of `validateSemantics` are
exactly the per-entry correlation errors. -/
theorem C4_tool_correlation :
    (∀ (entries : List AEFEntry) (e : AEFEntry) (c : String),
        e.type = "tool.result" → e.call_id = some c → ¬ c = "" →
        toolCorrAt entries e =
          (if ∃ x ∈ entries, x.type = "tool.call" ∧ x.call_id = some c then []
           else [{ rule := "call-id-match", msg := .callIdNoMatch c,
                   specRef := "§4.4/§4.5", entryIds := [e.id] }]))
    ∧ (∀ (entries : List AEFEntry) (e : AEFEntry),
        e.type = "tool.call" → toolCorrAt entries e = [])
    ∧ (∀ (entries : List AEFEntry) (e : AEFEntry),
        e.call_id = none → toolCorrAt entries e = [])
    ∧ (∀ entries : List AEFEntry,
        (validateSemantics entries).errors.filter (fun x => x.rule == "call-id-match") =
          validateToolCorrelation entries)
    ∧ (∀ entries : List AEFEntry,
        validateToolCorrelation entries = entries.flatMap (toolCorrAt entries)) := by
  refine ⟨?_, ?_, ?_, errors_filter_callId, fun entries => rfl⟩
  · intro entries e c ht hcall hne
    unfold toolCorrAt
    rw [if_pos (by simpa using ht), hcall]
    dsimp only
    rw [if_neg (by simpa using hne)]
    by_cases hex : ∃ x ∈ entries, x.type = "tool.call" ∧ x.call_id = some c
    · rw [if_pos hex]
      have hmem : (toolCallIds entries).contains c = true :=
        contains_iff_mem.mpr (mem_toolCallIds.mpr ⟨hne, hex⟩)
      rw [hmem]
      rfl
    · rw [if_neg hex]
      have hmem : ¬ (toolCallIds entries).contains c = true := fun hc =>
        hex (mem_toolCallIds.mp (contains_iff_mem.mp hc)).2
      rw [Bool.not_eq_true] at hmem
      rw [hmem]
      rfl
  · intro entries e ht
    unfold toolCorrAt
    rw [if_neg]
    simp [ht]
  · intro entries e hnone
    unfold toolCorrAt
    split
    · rw [hnone]
    · rfl

/-- C4 witness: on a log holding only `orphanResult`, the correlation check
emits the `call-id-match` error. -/
theorem C4_witness :
    toolCorrAt [orphanResult] orphanResult =
      [{ rule := "call-id-match", msg := .callIdNoMatch "tc999",
         specRef := "§4.4/§4.5", entryIds := ["r1"] }] := by
  rw [C4_tool_correlation.1 [orphanResult] orphanResult "tc999" rfl rfl (by decide)]
  rw [if_neg (by decide)]
  rfl

/-- A failed `tool.result` whose `error.message` is the empty string. -/
def emptyMsgEntry : AEFEntry :=
  { id := "t1", ts := 0, type := "tool.result", sid := "s1",
    success := some false, error := some { message := some "" } }

/-- C3 counterexample: a `tool.result` with `success === false` whose
`error.message` is the empty string `""` produces NO `error-required` hard
error (the source only tests `typeof error.message !== 'string'`), contrary
to the claim that a non-empty message is required. -/
theorem C3_counterexample :
    (validateSemantics [emptyMsgEntry]).errors = [] ∧
    emptyMsgEntry.type = "tool.result" ∧
    emptyMsgEntry.success = some false ∧
    emptyMsgEntry.error = some { message := some "" } := by decide

/-- C3 (amended): for every `tool.result` entry with `success === false`,
`validateSemantics` emits exactly one `error-required` hard error iff the
entry lacks an `error` object whose `message` field is a string — a present
empty-string message satisfies the check; `success === true` never triggers
the rule. -/
theorem C3_error_required :
    (∀ e : AEFEntry,
        errorRequiredAt e ≠ [] ↔
          (e.type = "tool.result" ∧ e.success = some false ∧
            (e.error = none ∨ ∃ te, e.error = some te ∧ te.message = none)))
    ∧ (∀ e : AEFEntry,
        errorRequiredAt e = [] ∨
          errorRequiredAt e = [{ rule := "error-required", msg := .errorRequired,
                                 specRef := "§4.5", entryIds := [e.id] }])
    ∧ (∀ entries : List AEFEntry,
        (validateSemantics entries).errors.filter (fun x => x.rule == "error-required") =
          validateErrorRequired entries)
    ∧ (∀ entries : List AEFEntry,
        validateErrorRequired entries = entries.flatMap errorRequiredAt) := by
  refine ⟨fun e => ?_, fun e => ?_, errors_filter_errorRequired, fun entries => rfl⟩
  · unfold errorRequiredAt
    split
    · next hg =>
      rw [Bool.and_eq_true] at hg
      have ht : e.type = "tool.result" := by simpa using hg.1
      have hs : e.success = some false := by simpa using hg.2
      split
      · next hm =>
        simp only [ne_eq, List.cons_ne_nil, not_false_iff, true_iff]
        refine ⟨ht, hs, ?_⟩
        cases herr : e.error with
        | none => exact Or.inl rfl
        | some te =>
          rw [herr] at hm
          dsimp only at hm
          exact Or.inr ⟨te, rfl, by simpa using hm⟩
      · next hm =>
        constructor
        · intro habs
          exact absurd rfl habs
        · rintro ⟨_, _, herr | ⟨te, hte, hmsg⟩⟩
          · exfalso
            rw [herr] at hm
            dsimp only at hm
            exact hm rfl
          · exfalso
            rw [hte] at hm
            dsimp only at hm
            rw [hmsg] at hm
            exact hm rfl
    · next hg =>
      constructor
      · intro habs
        exact absurd rfl habs
      · rintro ⟨ht, hs, _⟩
        exact absurd (by simp [ht, hs]) hg
  · unfold errorRequiredAt
    split
    · split
      · exact Or.inr rfl
      · exact Or.inl rfl
    · exact Or.inl rfl

/-- C3 witness: a failed `tool.result` with no `error` object at all is
flagged by the amended rule. -/
theorem C3_witness :
    errorRequiredAt { id := "t2", ts := 0, type := "tool.result", sid := "s1",
                      success := some false } ≠ [] := by
  rw [C3_error_required.1]
  exact ⟨rfl, rfl, Or.inl rfl⟩

/-- An entry whose `entryType` has two separators but uppercase segments. -/
def upperTypeEntry : AEFEntry := { id := "x1", ts := 0, type := "A.B.C", sid := "s1" }

/-- C9 counterexample: the entry type `"A.B.C"` has 2 separators and
uppercase letters, yet `isExtensionEntry` classifies it as an extension —
the source checks only the separator count, not the segment characters. -/
theorem C9_counterexample :
    isExtensionEntry upperTypeEntry = true ∧
    upperTypeEntry.type = "A.B.C" ∧
    2 ≤ dotCount upperTypeEntry.type := by decide

/-- C9 (amended): classification depends only on the `entryType` string; an
entry is core iff its type exactly matches one of the six reserved names,
and is an extension iff it is not core and its type contains at least two
`.` separators — with no constraint on the characters of the segments. -/
theorem C9_classification :
    (∀ e : AEFEntry, isCoreEntry e = true ↔ e.type ∈ CORE_TYPES)
    ∧ (∀ e : AEFEntry,
        isExtensionEntry e = true ↔ (2 ≤ dotCount e.type ∧ e.type ∉ CORE_TYPES))
    ∧ (∀ e1 e2 : AEFEntry, e1.type = e2.type →
        isCoreEntry e1 = isCoreEntry e2 ∧ isExtensionEntry e1 = isExtensionEntry e2) := by
  refine ⟨fun e => ?_, fun e => ?_, fun e1 e2 h => ?_⟩
  · rw [isCoreEntry, contains_iff_mem]
  · rw [isExtensionEntry, Bool.and_eq_true, decide_eq_true_iff, Bool.not_eq_true',
        ← Bool.not_eq_true, isCoreEntry, contains_iff_mem]
  · have hc : isCoreEntry e1 = isCoreEntry e2 := by
      unfold isCoreEntry
      rw [h]
    have he : isExtensionEntry e1 = isExtensionEntry e2 := by
      unfold isExtensionEntry
      rw [h, hc]
    exact ⟨hc, he⟩

/-- C9 witness: two distinct entries with the same namespaced type get the
same classification. -/
theorem C9_witness :
    isCoreEntry { id := "a", ts := 0, type := "vendor.cat.kind", sid := "s1" } =
      isCoreEntry { id := "b", ts := 5, type := "vendor.cat.kind", sid := "s2" } ∧
    isExtensionEntry { id := "a", ts := 0, type := "vendor.cat.kind", sid := "s1" } =
      isExtensionEntry { id := "b", ts := 5, type := "vendor.cat.kind", sid := "s2" } :=
  C9_classification.2.2 _ _ rfl

/-- A log where id `"a"` occurs at positions 0 and 2 and the entry at
position 1 references `"a"` as its parent. -/
def dupResolutionEntries : List AEFEntry :=
  [{ id := "a", ts := 0, type := "message", sid := "s1" },
   { id := "b", ts := 1, type := "message", sid := "s1", pid := some "a" },
   { id := "a", ts := 2, type := "message", sid := "s1" }]

/-- C10: the `entryById` index retains only the last occurrence of a
duplicated id (later `Map.set` calls overwrite earlier ones), so reference
checks resolve against the last occurrence in document order; concretely,
`dupResolutionEntries` gets a future-reference `pid-exists` hard error even
though an earlier same-session entry bearing the referenced id exists. -/
theorem C10_last_occurrence_wins :
    (∀ (entries : List AEFEntry) (key : String) (parent : AEFEntry) (j : Nat),
        entryById entries key = some (parent, j) ↔
          (entries[j]? = some parent ∧ parent.id = key ∧
            ∀ k x, j < k → entries[k]? = some x → ¬ x.id = key))
    ∧ (validateSemantics dupResolutionEntries).errors =
        [{ rule := "pid-exists", msg := .pidFuture "a", specRef := "§6.2",
           entryIds := ["b", "a"] }]
    ∧ dupResolutionEntries[0]?.map (fun e => (e.id, e.sid)) = some ("a", "s1")
    ∧ dupResolutionEntries[1]?.map (fun e => (e.pid, e.sid)) = some (some "a", "s1") := by
  exact ⟨fun entries key parent j => entryById_eq_some_iff, by decide, by decide, by decide⟩

/-- C1: for every entry with a (truthy) parentId and for every id in an
entry's dependencyIds, exactly one hard error is emitted iff the reference
fails one of three checks tested in order — the id resolves to no entry of
the list, or it resolves to an entry at position ≥ the referring entry's
position, or it resolves to an entry of a different session — and no error
is emitted when it resolves to a strictly earlier same-session entry; the
pid-rule and deps-rule errors of `validateSemantics` are exactly these
per-reference errors. -/
theorem C1_reference_checks :
    (∀ (entries : List AEFEntry) (i : Nat) (e : AEFEntry) (p : String),
        entries[i]? = some e → e.pid = some p → ¬ p = "" →
        ((entryById entries p = none ↔ ∀ x ∈ entries, ¬ x.id = p)
         ∧ (entryById entries p = none →
              pidErrorsAt entries i e =
                [{ rule := "pid-exists", msg := .pidNonExistent p,
                   specRef := "§6.2", entryIds := [e.id] }])
         ∧ (∀ (parent : AEFEntry) (j : Nat), entryById entries p = some (parent, j) →
              pidErrorsAt entries i e =
                (if i ≤ j then
                   [{ rule := "pid-exists", msg := .pidFuture p,
                      specRef := "§6.2", entryIds := [e.id, p] }]
                 else if ¬ parent.sid = e.sid then
                   [{ rule := "pid-same-session", msg := .pidDifferentSession,
                      specRef := "§3.1.4", entryIds := [e.id, p] }]
                 else []))))
    ∧ (∀ (entries : List AEFEntry) (i : Nat) (e : AEFEntry) (d : String),
        entries[i]? = some e → d ∈ e.deps →
        ((entryById entries d = none ↔ ∀ x ∈ entries, ¬ x.id = d)
         ∧ (entryById entries d = none →
              depErrorAt entries i e d =
                [{ rule := "deps-exist", msg := .depNonExistent d,
                   specRef := "§6.2", entryIds := [e.id] }])
         ∧ (∀ (dep : AEFEntry) (j : Nat), entryById entries d = some (dep, j) →
              depErrorAt entries i e d =
                (if i ≤ j then
                   [{ rule := "deps-exist", msg := .depFuture d,
                      specRef := "§6.2", entryIds := [e.id, d] }]
                 else if ¬ dep.sid = e.sid then
                   [{ rule := "deps-same-session", msg := .depDifferentSession d,
                      specRef := "§3.1.4", entryIds := [e.id, d] }]
                 else []))))
    ∧ (∀ entries : List AEFEntry,
        (validateSemantics entries).errors.filter
            (fun x => x.rule == "pid-exists" || x.rule == "pid-same-session") =
          validatePidExists entries)
    ∧ (∀ entries : List AEFEntry,
        (validateSemantics entries).errors.filter
            (fun x => x.rule == "deps-exist" || x.rule == "deps-same-session") =
          validateDepsExist entries)
    ∧ (∀ entries : List AEFEntry,
        validatePidExists entries =
          (enumFrom 0 entries).flatMap (fun q => pidErrorsAt entries q.1 q.2))
    ∧ (∀ entries : List AEFEntry,
        validateDepsExist entries =
          (enumFrom 0 entries).flatMap
            (fun q => q.2.deps.flatMap (depErrorAt entries q.1 q.2))) := by
  refine ⟨?_, ?_, errors_filter_pid, errors_filter_deps, fun _ => rfl, fun _ => rfl⟩
  · intro entries i e p hget hp hne
    refine ⟨entryById_eq_none_iff, ?_, ?_⟩
    · intro hnone
      unfold pidErrorsAt
      rw [hp]
      dsimp only
      rw [if_neg (by simpa using hne), hnone]
    · intro parent j hsome
      unfold pidErrorsAt
      rw [hp]
      dsimp only
      rw [if_neg (by simpa using hne), hsome]
      dsimp only
      by_cases hij : i ≤ j
      · rw [if_pos hij, if_pos hij]
      · rw [if_neg hij, if_neg hij]
        by_cases hsid : parent.sid = e.sid
        · rw [if_neg (by simp [hsid]), if_neg (by simp [hsid])]
        · rw [if_pos (by simp [hsid]), if_pos hsid]
  · intro entries i e d hget hd
    refine ⟨entryById_eq_none_iff, ?_, ?_⟩
    · intro hnone
      unfold depErrorAt
      rw [hnone]
    · intro dep j hsome
      unfold depErrorAt
      rw [hsome]
      dsimp only
      by_cases hij : i ≤ j
      · rw [if_pos hij, if_pos hij]
      · rw [if_neg hij, if_neg hij]
        by_cases hsid : dep.sid = e.sid
        · rw [if_neg (by simp [hsid]), if_neg (by simp [hsid])]
        · rw [if_pos (by simp [hsid]), if_pos hsid]

/-- Log used in the C1 witness: a valid backward parent reference and a
dependency on a non-existent id. -/
def refCheckEntries : List AEFEntry :=
  [{ id := "01", ts := 0, type := "message", sid := "s1" },
   { id := "02", ts := 1, type := "message", sid := "s1", pid := some "01", deps := ["99"] }]

/-- C1 witness: the strictly earlier same-session parent reference yields
no error; the dangling dependency id yields exactly one `deps-exist` error. -/
theorem C1_witness :
    pidErrorsAt refCheckEntries 1 (getE refCheckEntries 1) = [] ∧
    depErrorAt refCheckEntries 1 (getE refCheckEntries 1) "99" =
      [{ rule := "deps-exist", msg := .depNonExistent "99", specRef := "§6.2",
         entryIds := ["02"] }] := by
  constructor
  · have h := (C1_reference_checks.1 refCheckEntries 1 (getE refCheckEntries 1) "01"
      (by decide) (by decide) (by decide)).2.2
      { id := "01", ts := 0, type := "message", sid := "s1" } 0 (by decide)
    rw [h]
    decide
  · have h := (C1_reference_checks.2.1 refCheckEntries 1 (getE refCheckEntries 1) "99"
      (by decide) (by decide)).2.1 (by decide)
    rw [h]
    decide

/-- Loop invariant of `validateIdUniqueness`: after processing the prefix
`pre`, the `seen` map answers lookups with the position of the most recent
occurrence in `pre`, so each repeat is reported against the last previous
occurrence of its id. -/
theorem idUniqLoop_spec (entries : List AEFEntry) :
    ∀ (rest pre : List AEFEntry) (seen : List (String × Nat)),
      entries = pre ++ rest →
      (∀ key, List.lookup key seen = (entryById pre key).map (fun q => q.2)) →
      idUniqLoop rest pre.length seen =
        (enumFrom pre.length rest).flatMap (fun q =>
          match entryById (entries.take q.1) q.2.id with
          | some r => [{ rule := "id-unique", msg := .duplicateId q.2.id r.2 q.1,
                         specRef := "§3.1.1", entryIds := [q.2.id] }]
          | none => []) := by
  intro rest
  induction rest with
  | nil =>
    intro pre seen heq hseen
    rfl
  | cons e rest' ih =>
    intro pre seen heq hseen
    simp only [idUniqLoop, enumFrom, List.flatMap_cons]
    congr 1
    · have htake : entries.take pre.length = pre := by
        rw [heq]
        exact List.take_left pre (e :: rest')
      rw [htake, hseen e.id]
      cases entryById pre e.id <;> rfl
    · have heq' : entries = (pre ++ [e]) ++ rest' := by rw [heq]; simp
      have hseen' : ∀ key, List.lookup key ((e.id, pre.length) :: seen) =
          (entryById (pre ++ [e]) key).map (fun q => q.2) := by
        intro key
        rw [entryById_concat]
        by_cases hk : e.id = key
        · rw [if_pos hk]
          simp [List.lookup, hk]
        · rw [if_neg hk, ← hseen key]
          simp only [List.lookup]
          have hbeq : (key == e.id) = false := by
            rw [beq_eq_false_iff_ne]
            exact fun hkk => hk hkk.symm
          rw [hbeq]
      have h := ih (pre ++ [e]) ((e.id, pre.length) :: seen) heq' hseen'
      simpa using h

/-- Three entries sharing one id. -/
def tripleDupEntries : List AEFEntry :=
  [{ id := "x", ts := 0, type := "message", sid := "s1" },
   { id := "x", ts := 1, type := "message", sid := "s1" },
   { id := "x", ts := 2, type := "message", sid := "s1" }]

/-- C8 counterexample: with three entries sharing id `"x"`, the second
`id-unique` warning names positions 1 and 2 — the nearest previous
occurrence, not the position of the first occurrence (0) as claimed. -/
theorem C8_counterexample :
    (validateSemantics tripleDupEntries).warnings =
      [{ rule := "id-unique", msg := .duplicateId "x" 0 1,
         specRef := "§3.1.1", entryIds := ["x"] },
       { rule := "id-unique", msg := .duplicateId "x" 1 2,
         specRef := "§3.1.1", entryIds := ["x"] }] ∧
    ErrMsg.duplicateId "x" 1 2 ≠ ErrMsg.duplicateId "x" 0 2 := by decide

/-- C8 (amended): every occurrence of an id after the first — anywhere in
the full list, not scoped to session — emits exactly one `id-unique`
warning (never an error) naming the position of the *most recent previous*
occurrence of that id and the position of the repeat. -/
theorem C8_duplicate_ids :
    (∀ entries : List AEFEntry,
        validateIdUniqueness entries =
          (enumFrom 0 entries).flatMap (fun q =>
            match entryById (entries.take q.1) q.2.id with
            | some r => [{ rule := "id-unique", msg := .duplicateId q.2.id r.2 q.1,
                           specRef := "§3.1.1", entryIds := [q.2.id] }]
            | none => []))
    ∧ (∀ entries : List AEFEntry,
        (validateSemantics entries).warnings.filter (fun x => x.rule == "id-unique") =
          validateIdUniqueness entries)
    ∧ (∀ entries : List AEFEntry,
        (validateSemantics entries).errors.filter (fun x => x.rule == "id-unique") = []) := by
  refine ⟨fun entries => ?_, warnings_filter_idUnique, errors_no_idUnique⟩
  have h := idUniqLoop_spec entries entries [] [] rfl
    (fun key => by simp [entryById, enumFrom, List.lookup])
  simpa [validateIdUniqueness] using h

/-- The `(seq, id)` pairs of the entries at the given positions that carry a
`sequenceNumber`, in order, skipping entries without one. -/
def seqOf (entries : List AEFEntry) (idxs : List Nat) : List (Int × String) :=
  idxs.filterMap (fun i => (getE entries i).seq.map (fun q => (q, (getE entries i).id)))

/-- The seq-bearing subsequence of one session, in document order. -/
def seqPresent (entries : List AEFEntry) (sid : String) : List (Int × String) :=
  seqOf entries (sessionIdxs entries sid)

/-- One `seq-monotonic` error per adjacent pair whose later value is less
than or equal to the earlier value. -/
def seqPairErrors (sid : String) (l : List (Int × String)) : List SemanticError :=
  (l.zip l.tail).filterMap (fun pq =>
    if pq.2.1 ≤ pq.1.1 then
      some { rule := "seq-monotonic", msg := .seqNonMonotonic sid pq.1.1 pq.2.1,
             specRef := "§3.2.1", entryIds := [pq.1.2, pq.2.2] }
    else none)

theorem seqScan_eq (entries : List AEFEntry) (sid : String) :
    ∀ (idxs : List Nat) (acc : Option (Int × String)),
      seqScan entries sid idxs acc =
        seqPairErrors sid (acc.toList ++ seqOf entries idxs) := by
  intro idxs
  induction idxs with
  | nil =>
    intro acc
    cases acc <;> rfl
  | cons i rest ih =>
    intro acc
    simp only [seqScan, seqOf, List.filterMap_cons]
    cases hseq : (getE entries i).seq with
    | none =>
      dsimp only
      rw [ih acc]
      rfl
    | some q =>
      dsimp only
      rw [ih (some (q, (getE entries i).id))]
      cases acc with
      | none => rfl
      | some a =>
        by_cases hle : q ≤ a.1
        · simp [seqPairErrors, seqOf, List.filterMap_cons, hle, Option.toList]
        · simp [seqPairErrors, seqOf, List.filterMap_cons, hle, Option.toList]

/-- Two contiguous sessions using the same `seq` values 1 and 2. -/
def twoSessionsSameSeq : List AEFEntry :=
  [{ id := "a1", ts := 0, type := "message", sid := "s1", seq := some 1 },
   { id := "a2", ts := 1, type := "message", sid := "s1", seq := some 2 },
   { id := "b1", ts := 2, type := "message", sid := "s2", seq := some 1 },
   { id := "b2", ts := 3, type := "message", sid := "s2", seq := some 2 }]

/-- C5: per session, over the seq-bearing entries in document order
(entries without a `sequenceNumber` are skipped), each adjacent pair whose
later value is ≤ the earlier value yields one `seq-monotonic` hard error —
strict increase required, repeats and decreases both fail; sessions are
checked independently, so equal seq values in two different sessions (the
concrete log `twoSessionsSameSeq`) produce no error; and the
`seq-monotonic` errors of `validateSemantics` are exactly these. -/
theorem C5_seq_monotonic :
    (∀ (entries : List AEFEntry) (sid : String),
        seqErrorsFor entries sid = seqPairErrors sid (seqPresent entries sid))
    ∧ (∀ entries : List AEFEntry,
        (validateSemantics entries).errors.filter (fun x => x.rule == "seq-monotonic") =
          validateSeqMonotonicity entries)
    ∧ (∀ entries : List AEFEntry,
        validateSeqMonotonicity entries =
          (sessionIdsInOrder entries).flatMap (seqErrorsFor entries))
    ∧ validateSeqMonotonicity twoSessionsSameSeq = []
    ∧ seqErrorsFor
        [{ id := "r1", ts := 0, type := "message", sid := "s1", seq := some 5 },
         { id := "r2", ts := 1, type := "message", sid := "s1", seq := some 5 }] "s1" =
        [{ rule := "seq-monotonic", msg := .seqNonMonotonic "s1" 5 5,
           specRef := "§3.2.1", entryIds := ["r1", "r2"] }] := by
  refine ⟨fun entries sid => ?_, errors_filter_seq, fun _ => rfl, by decide, by decide⟩
  have h := seqScan_eq entries sid (sessionIdxs entries sid) none
  simpa [seqErrorsFor, seqPresent] using h

theorem sorted_le_getLastD :
    ∀ {l : List Nat}, List.Pairwise (· < ·) l → ∀ {j : Nat}, j ∈ l → ∀ d, j ≤ l.getLastD d
  | [], _, j, hj, _ => absurd hj (List.not_mem_nil j)
  | [a], _, j, hj, d => by
    simp at hj
    simp [hj]
  | a :: b :: t, hp, j, hj, d => by
    have hgl : (a :: b :: t).getLastD d = (b :: t).getLastD d := by simp [List.getLastD]
    rw [hgl]
    rcases List.mem_cons.mp hj with rfl | hj2
    · have hab : j < b := (List.pairwise_cons.mp hp).1 b (by simp)
      have hb := sorted_le_getLastD (List.pairwise_cons.mp hp).2 (List.mem_cons_self b t) d
      omega
    · exact sorted_le_getLastD (List.pairwise_cons.mp hp).2 hj2 d

/-- A session whose first entry is a `session.start` and which contains a
second, mid-session `session.start`. -/
def doubleStartEntries : List AEFEntry :=
  [{ id := "st1", ts := 0, type := "session.start", sid := "s1" },
   { id := "m1", ts := 1, type := "message", sid := "s1" },
   { id := "st2", ts := 2, type := "session.start", sid := "s1" }]

/-- C2 counterexample: in `doubleStartEntries` the `session.start` entry at
position 2 is not its session's first entry (position 0 is), yet
`validateSemantics` reports no error at all — the check only tests the type
of the session's first entry. -/
theorem C2_counterexample :
    (validateSemantics doubleStartEntries).errors = [] ∧
    doubleStartEntries[2]?.map (fun e => (e.type, e.sid)) = some ("session.start", "s1") ∧
    (sessionIdxs doubleStartEntries "s1").head? = some 0 ∧
    doubleStartEntries[0]?.map (fun e => e.type) = some "session.start" := by decide

/-- C2 (amended): per session, exactly one `session-start-first` hard error
is emitted iff some entry of the session has type `session.start` and the
session's first entry (in document order) does not itself have type
`session.start`; symmetrically for `session.end` and `session-end-last`
against the session's last entry. A session whose first entry is a
`session.start` emits no error even if another `session.start` appears
mid-session. -/
theorem C2_session_boundaries :
    (∀ (entries : List AEFEntry) (sid : String) (i0 : Nat) (rest : List Nat),
        sessionIdxs entries sid = i0 :: rest →
        (((boundaryErrorsFor entries sid).countP (fun x => x.rule == "session-start-first") =
            if (∃ i ∈ sessionIdxs entries sid, (getE entries i).type = "session.start") ∧
                ¬ (getE entries i0).type = "session.start" then 1 else 0)
         ∧ ((boundaryErrorsFor entries sid).countP (fun x => x.rule == "session-end-last") =
            if (∃ i ∈ sessionIdxs entries sid, (getE entries i).type = "session.end") ∧
                ¬ (getE entries ((i0 :: rest).getLastD 0)).type = "session.end" then 1 else 0)
         ∧ (∀ j ∈ sessionIdxs entries sid, i0 ≤ j ∧ j ≤ (i0 :: rest).getLastD 0)))
    ∧ (∀ entries : List AEFEntry,
        (validateSemantics entries).errors.filter
            (fun x => x.rule == "session-start-first" || x.rule == "session-end-last") =
          validateSessionBoundaries entries)
    ∧ (∀ entries : List AEFEntry,
        validateSessionBoundaries entries =
          (sessionIdsInOrder entries).flatMap (boundaryErrorsFor entries)) := by
  refine ⟨?_, errors_filter_boundaries, fun _ => rfl⟩
  intro entries sid i0 rest hidx
  have hsorted := sessionIdxs_sorted entries sid
  rw [hidx] at hsorted
  have hmin : ∀ j ∈ sessionIdxs entries sid, i0 ≤ j ∧ j ≤ (i0 :: rest).getLastD 0 := by
    intro j hj
    rw [hidx] at hj
    refine ⟨?_, sorted_le_getLastD hsorted hj 0⟩
    rcases List.mem_cons.mp hj with rfl | hj2
    · exact Nat.le_refl j
    · exact Nat.le_of_lt ((List.pairwise_cons.mp hsorted).1 j hj2)
  have hiffS : (((i0 :: rest).any fun i => (getE entries i).type == "session.start") &&
      !((getE entries i0).type == "session.start")) = true ↔
      ((∃ i ∈ i0 :: rest, (getE entries i).type = "session.start") ∧
        ¬ (getE entries i0).type = "session.start") := by
    rw [Bool.and_eq_true, List.any_eq_true]
    simp
  have hiffE : (((i0 :: rest).any fun i => (getE entries i).type == "session.end") &&
      !((getE entries ((i0 :: rest).getLastD 0)).type == "session.end")) = true ↔
      ((∃ i ∈ i0 :: rest, (getE entries i).type = "session.end") ∧
        ¬ (getE entries ((i0 :: rest).getLastD 0)).type = "session.end") := by
    rw [Bool.and_eq_true, List.any_eq_true]
    simp
  refine ⟨?_, ?_, hmin⟩
  · unfold boundaryErrorsFor
    rw [hidx]
    dsimp only
    rw [List.countP_append, if_congr hiffS rfl rfl, if_congr hiffE rfl rfl]
    by_cases hp1 : (∃ i ∈ i0 :: rest, (getE entries i).type = "session.start") ∧
        ¬ (getE entries i0).type = "session.start" <;>
      by_cases hp2 : (∃ i ∈ i0 :: rest, (getE entries i).type = "session.end") ∧
          ¬ (getE entries ((i0 :: rest).getLastD 0)).type = "session.end" <;>
      first
      | (rw [if_pos hp1, if_pos hp2, if_pos hp1]; simp [List.countP_cons])
      | (rw [if_pos hp1, if_neg hp2, if_pos hp1]; simp [List.countP_cons])
      | (rw [if_neg hp1, if_pos hp2, if_neg hp1]; simp [List.countP_cons])
      | (rw [if_neg hp1, if_neg hp2, if_neg hp1]; simp [List.countP_cons])
  · unfold boundaryErrorsFor
    rw [hidx]
    dsimp only
    rw [List.countP_append, if_congr hiffS rfl rfl, if_congr hiffE rfl rfl]
    by_cases hp1 : (∃ i ∈ i0 :: rest, (getE entries i).type = "session.start") ∧
        ¬ (getE entries i0).type = "session.start" <;>
      by_cases hp2 : (∃ i ∈ i0 :: rest, (getE entries i).type = "session.end") ∧
          ¬ (getE entries ((i0 :: rest).getLastD 0)).type = "session.end" <;>
      first
      | (rw [if_pos hp1, if_pos hp2, if_pos hp2]; simp [List.countP_cons])
      | (rw [if_pos hp1, if_neg hp2, if_neg hp2]; simp [List.countP_cons])
      | (rw [if_neg hp1, if_pos hp2, if_pos hp2]; simp [List.countP_cons])
      | (rw [if_neg hp1, if_neg hp2, if_neg hp2]; simp [List.countP_cons])

theorem mem_of_getElem?_some {l : List Nat} {k x : Nat} (h : l[k]? = some x) : x ∈ l := by
  have hk : k < l.length := (List.getElem?_eq_some.mp h).1
  have hv : l[k] = x := by simpa [List.getElem?_eq_getElem hk] using h
  exact hv ▸ List.getElem_mem hk

theorem mem_range'_iff {m s n : Nat} : m ∈ List.range' s n ↔ s ≤ m ∧ m < s + n := by
  rw [List.mem_range']
  constructor
  · rintro ⟨i, hi, rfl⟩
    omega
  · rintro ⟨h1, h2⟩
    exact ⟨m - s, by omega, by omega⟩

theorem zip_tail_mem : ∀ {l : List Nat} {a b : Nat},
    (a, b) ∈ l.zip l.tail ↔ ∃ k, l[k]? = some a ∧ l[k + 1]? = some b
  | [], a, b => by simp
  | [x], a, b => by
    constructor
    · intro h
      simp at h
    · rintro ⟨k, h1, h2⟩
      have : k + 1 < 1 := (List.getElem?_eq_some.mp h2).1
      omega
  | x :: y :: t, a, b => by
    have ih := zip_tail_mem (l := y :: t) (a := a) (b := b)
    constructor
    · intro h
      rcases List.mem_cons.mp h with heq | hmem
      · cases heq
        exact ⟨0, by simp, by simp⟩
      · obtain ⟨k, h1, h2⟩ := ih.mp hmem
        exact ⟨k + 1, by simpa using h1, by simpa using h2⟩
    · rintro ⟨k, h1, h2⟩
      cases k with
      | zero =>
        simp at h1 h2
        rw [h1, h2]
        exact List.mem_cons_self _ _
      | succ k =>
        simp at h1 h2
        exact List.mem_cons_of_mem _ (ih.mpr ⟨k, h1, by simpa using h2⟩)

theorem sorted_getElem?_lt {l : List Nat} (hs : List.Pairwise (· < ·) l) {i j a b : Nat}
    (ha : l[i]? = some a) (hb : l[j]? = some b) (hij : i < j) : a < b := by
  have hi : i < l.length := (List.getElem?_eq_some.mp ha).1
  have hj : j < l.length := (List.getElem?_eq_some.mp hb).1
  have hav : l[i] = a := by simpa [List.getElem?_eq_getElem hi] using ha
  have hbv : l[j] = b := by simpa [List.getElem?_eq_getElem hj] using hb
  have := List.pairwise_iff_getElem.mp hs i j hi hj hij
  omega

/-- No member of a sorted list lies strictly between two adjacent members. -/
theorem between_not_mem {l : List Nat} (hs : List.Pairwise (· < ·) l) {a b m k : Nat}
    (ha : l[k]? = some a) (hb : l[k + 1]? = some b) (h1 : a < m) (h2 : m < b) : m ∉ l := by
  intro hm
  obtain ⟨idx, hidx, hval⟩ := List.mem_iff_getElem.mp hm
  have hak : k < l.length := (List.getElem?_eq_some.mp ha).1
  have hbk : k + 1 < l.length := (List.getElem?_eq_some.mp hb).1
  have hav : l[k] = a := by simpa [List.getElem?_eq_getElem hak] using ha
  have hbv : l[k + 1] = b := by simpa [List.getElem?_eq_getElem hbk] using hb
  rcases Nat.lt_trichotomy idx (k + 1) with hlt | heq | hgt
  · have hle : idx ≤ k := by omega
    rcases Nat.eq_or_lt_of_le hle with heq2 | hlt2
    · subst heq2
      omega
    · have := List.pairwise_iff_getElem.mp hs idx k hidx hak hlt2
      omega
  · subst heq
    omega
  · have := List.pairwise_iff_getElem.mp hs (k + 1) idx hbk hidx hgt
    omega

/-- In a sorted list, a non-member lying strictly between two members lies
strictly between some adjacent pair. -/
theorem straddle : ∀ (l : List Nat), List.Pairwise (· < ·) l →
    ∀ {i1 i2 j : Nat}, i1 ∈ l → i2 ∈ l → i1 < j → j < i2 → j ∉ l →
      ∃ a b, (a, b) ∈ l.zip l.tail ∧ a < j ∧ j < b := by
  intro l
  induction l with
  | nil =>
    intro _ i1 i2 j h1 _ _ _ _
    cases h1
  | cons x t ih =>
    intro hs i1 i2 j h1 h2 hj1 hj2 hnj
    cases t with
    | nil =>
      simp at h1 h2
      omega
    | cons y t2 =>
      by_cases hjy : j < y
      · have hx : x < j := by
          rcases List.mem_cons.mp h1 with rfl | h1m
          · exact hj1
          · have := (List.pairwise_cons.mp hs).1 i1 h1m
            omega
        exact ⟨x, y, List.mem_cons_self _ _, hx, hjy⟩
      · have hyj : y < j := by
          have hne : j ≠ y := fun heq =>
            hnj (by rw [heq]; exact List.mem_cons_of_mem _ (List.mem_cons_self _ _))
          omega
        have h2m : i2 ∈ y :: t2 := by
          rcases List.mem_cons.mp h2 with h2x | h2m
          · have hxy : x < y := (List.pairwise_cons.mp hs).1 y (List.mem_cons_self _ _)
            omega
          · exact h2m
        have hnj2 : j ∉ y :: t2 := fun hm => hnj (List.mem_cons_of_mem _ hm)
        obtain ⟨a, b, hab, hja, hjb⟩ :=
          ih (List.pairwise_cons.mp hs).2 (List.mem_cons_self _ _) h2m hyj hj2 hnj2
        exact ⟨a, b, List.mem_cons_of_mem _ hab, hja, hjb⟩

theorem contigScan_length {entries : List AEFEntry} {sid : String} :
    ∀ pairs, (contigScan entries sid pairs).length ≤ 1 := by
  intro pairs
  induction pairs with
  | nil => simp [contigScan]
  | cons p rest ih =>
    obtain ⟨a, b⟩ := p
    unfold contigScan
    dsimp only
    split
    · split
      · simp
      · exact ih
    · exact ih

theorem contigScan_ne_nil_iff {entries : List AEFEntry} {sid : String} :
    ∀ pairs, contigScan entries sid pairs ≠ [] ↔
      ∃ pq ∈ pairs, pq.2 ≠ pq.1 + 1 ∧ interleavedSids entries sid (pq.1 + 1) pq.2 ≠ [] := by
  intro pairs
  induction pairs with
  | nil => simp [contigScan]
  | cons p rest ih =>
    obtain ⟨a, b⟩ := p
    unfold contigScan
    dsimp only
    by_cases hgap : b ≠ a + 1
    · rw [if_pos (by simpa using hgap)]
      by_cases hint : interleavedSids entries sid (a + 1) b ≠ []
      · rw [if_pos (by simpa using hint)]
        simp only [ne_eq, List.cons_ne_nil, not_false_iff, true_iff]
        exact ⟨(a, b), List.mem_cons_self _ _, hgap, hint⟩
      · rw [if_neg (by simpa using hint)]
        rw [ih]
        constructor
        · rintro ⟨pq, hpq, hg, hi⟩
          exact ⟨pq, List.mem_cons_of_mem _ hpq, hg, hi⟩
        · rintro ⟨pq, hpq, hg, hi⟩
          rcases List.mem_cons.mp hpq with rfl | hpq2
          · exact absurd hi hint
          · exact ⟨pq, hpq2, hg, hi⟩
    · rw [if_neg (by simpa using hgap)]
      rw [ih]
      constructor
      · rintro ⟨pq, hpq, hg, hi⟩
        exact ⟨pq, List.mem_cons_of_mem _ hpq, hg, hi⟩
      · rintro ⟨pq, hpq, hg, hi⟩
        rcases List.mem_cons.mp hpq with rfl | hpq2
        · exact absurd (not_not.mp hgap) hg
        · exact ⟨pq, hpq2, hg, hi⟩

theorem contigScan_of_find?_none {entries : List AEFEntry} {sid : String} :
    ∀ pairs, pairs.find? (fun pq => pq.2 != pq.1 + 1) = none →
      contigScan entries sid pairs = [] := by
  intro pairs
  induction pairs with
  | nil => intro _; rfl
  | cons p rest ih =>
    obtain ⟨a, b⟩ := p
    intro hfind
    have hcons := List.find?_eq_none.mp hfind (a, b) (List.mem_cons_self _ _)
    have hrest : rest.find? (fun pq => pq.2 != pq.1 + 1) = none := by
      rw [List.find?_eq_none]
      intro x hx
      exact List.find?_eq_none.mp hfind x (List.mem_cons_of_mem _ hx)
    unfold contigScan
    dsimp only
    rw [if_neg (by simpa using hcons)]
    exact ih hrest

theorem contigScan_of_find?_some {entries : List AEFEntry} {sid : String} :
    ∀ pairs (a b : Nat),
      (∀ pq ∈ pairs, pq.2 ≠ pq.1 + 1 → interleavedSids entries sid (pq.1 + 1) pq.2 ≠ []) →
      pairs.find? (fun pq => pq.2 != pq.1 + 1) = some (a, b) →
      contigScan entries sid pairs =
        [{ rule := "session-contiguous",
           msg := .sessionInterleaved sid (interleavedSids entries sid (a + 1) b),
           specRef := "§3.1.4",
           entryIds := [(getE entries a).id, (getE entries b).id] }] := by
  intro pairs
  induction pairs with
  | nil =>
    intro a b _ hfind
    simp [List.find?] at hfind
  | cons p rest ih =>
    obtain ⟨c, d⟩ := p
    intro a b hall hfind
    by_cases hgap : (d != c + 1) = true
    · rw [List.find?_cons] at hfind
      simp only [] at hfind
      rw [hgap] at hfind
      have heq : c = a ∧ d = b := by
        have := Option.some_inj.mp hfind
        cases this
        exact ⟨rfl, rfl⟩
      obtain ⟨rfl, rfl⟩ := heq
      unfold contigScan
      dsimp only
      rw [if_pos hgap,
        if_pos (by simpa using hall (c, d) (List.mem_cons_self _ _) (by simpa using hgap))]
    · have hf : (d != c + 1) = false := by
        cases h : (d != c + 1)
        · rfl
        · exact absurd h hgap
      rw [List.find?_cons] at hfind
      simp only [] at hfind
      rw [hf] at hfind
      unfold contigScan
      dsimp only
      rw [if_neg hgap]
      exact ih a b (fun pq hpq => hall pq (List.mem_cons_of_mem _ hpq)) hfind

theorem getE_getElem? {entries : List AEFEntry} {j : Nat} (h : j < entries.length) :
    entries[j]? = some (getE entries j) := by
  rw [List.getElem?_eq_getElem h, getE, List.getD_eq_getElem?_getD, List.getElem?_eq_getElem h]
  rfl

/-- A gap between two adjacent positions of a session always contains a
foreign entry, so the `interleaved` set scanned over it is never empty. -/
theorem gap_interleaved_ne_nil {entries : List AEFEntry} {sid : String} {a b : Nat}
    (hmem : (a, b) ∈ (sessionIdxs entries sid).zip (sessionIdxs entries sid).tail)
    (hgap : b ≠ a + 1) :
    interleavedSids entries sid (a + 1) b ≠ [] := by
  obtain ⟨k, ha, hb⟩ := zip_tail_mem.mp hmem
  have hsorted := sessionIdxs_sorted entries sid
  have hab : a < b := sorted_getElem?_lt hsorted ha hb (Nat.lt_succ_self k)
  have ha1b : a + 1 < b := by omega
  have hnotmem : (a + 1) ∉ sessionIdxs entries sid :=
    between_not_mem hsorted ha hb (Nat.lt_succ_self a) ha1b
  have hbmem : b ∈ sessionIdxs entries sid := mem_of_getElem?_some hb
  have hblen : b < entries.length := sessionIdxs_lt_length hbmem
  have hlen : a + 1 < entries.length := by omega
  have hsid : ¬ (getE entries (a + 1)).sid = sid := by
    intro heq
    exact hnotmem (mem_sessionIdxs.mpr ⟨getE entries (a + 1), getE_getElem? hlen, heq⟩)
  unfold interleavedSids
  intro hnil
  rw [firstOccAux_eq_nil] at hnil
  have hmem2 : (getE entries (a + 1)).sid ∈
      ((List.range' (a + 1) (b - (a + 1))).map (fun j => (getE entries j).sid)).filter
        (fun s => !(s == sid)) := by
    rw [List.mem_filter]
    refine ⟨List.mem_map.mpr ⟨a + 1, mem_range'_iff.mpr ⟨Nat.le_refl _, by omega⟩, rfl⟩, ?_⟩
    simp [hsid]
  simpa using hnil _ hmem2

/-- The first non-adjacent consecutive pair of a session's position list. -/
def firstGap (entries : List AEFEntry) (sid : String) : Option (Nat × Nat) :=
  ((sessionIdxs entries sid).zip (sessionIdxs entries sid).tail).find?
    (fun pq => pq.2 != pq.1 + 1)

/-- Two sessions interleaved: sA at positions 0 and 2, sB at 1 and 3. -/
def interleavedEntries : List AEFEntry :=
  [{ id := "a1", ts := 0, type := "message", sid := "sA" },
   { id := "b1", ts := 1, type := "message", sid := "sB" },
   { id := "a2", ts := 2, type := "message", sid := "sA" },
   { id := "b2", ts := 3, type := "message", sid := "sB" }]

/-- C6: a session gets exactly one `session-contiguous` hard error iff some
entry of a different session lies strictly between two of its entries (so a
contiguous, empty or single-entry session gets none); the single error
reports the first gap found in document order and names the interleaving
sessions (a non-empty list); and the `session-contiguous` errors of
`validateSemantics` are exactly the per-session contiguity errors. -/
theorem C6_session_contiguity :
    (∀ (entries : List AEFEntry) (sid : String),
        (contiguityErrorsFor entries sid ≠ [] ↔
          ∃ i1 j i2, i1 ∈ sessionIdxs entries sid ∧ i2 ∈ sessionIdxs entries sid ∧
            i1 < j ∧ j < i2 ∧ ∃ x, entries[j]? = some x ∧ ¬ x.sid = sid))
    ∧ (∀ (entries : List AEFEntry) (sid : String),
        (contiguityErrorsFor entries sid).length ≤ 1)
    ∧ (∀ (entries : List AEFEntry) (sid : String) (a b : Nat),
        firstGap entries sid = some (a, b) →
        (contiguityErrorsFor entries sid =
            [{ rule := "session-contiguous",
               msg := .sessionInterleaved sid (interleavedSids entries sid (a + 1) b),
               specRef := "§3.1.4",
               entryIds := [(getE entries a).id, (getE entries b).id] }] ∧
          interleavedSids entries sid (a + 1) b ≠ []))
    ∧ (∀ (entries : List AEFEntry) (sid : String),
        firstGap entries sid = none → contiguityErrorsFor entries sid = [])
    ∧ (∀ (entries : List AEFEntry) (sid : String),
        (sessionIdxs entries sid).length ≤ 1 → contiguityErrorsFor entries sid = [])
    ∧ (∀ entries : List AEFEntry,
        (validateSemantics entries).errors.filter (fun x => x.rule == "session-contiguous") =
          validateSessionContiguity entries)
    ∧ (∀ entries : List AEFEntry,
        validateSessionContiguity entries =
          (sessionIdsInOrder entries).flatMap (contiguityErrorsFor entries)) := by
  refine ⟨?_, ?_, ?_, ?_, ?_, errors_filter_contiguity, fun _ => rfl⟩
  · intro entries sid
    constructor
    · intro hne
      unfold contiguityErrorsFor at hne
      dsimp only at hne
      by_cases hlen : (sessionIdxs entries sid).length ≤ 1
      · rw [if_pos hlen] at hne
        exact absurd rfl hne
      · rw [if_neg hlen] at hne
        obtain ⟨⟨a, b⟩, hmem, hgap, hint⟩ := (contigScan_ne_nil_iff _).mp hne
        obtain ⟨s, hs⟩ := List.exists_mem_of_ne_nil _ hint
        have hsf := (mem_firstOccAux.mp hs).1
        obtain ⟨hsm, hpred⟩ := List.mem_filter.mp hsf
        obtain ⟨j, hjr, hjs⟩ := List.mem_map.mp hsm
        obtain ⟨hj1, hj2⟩ := mem_range'_iff.mp hjr
        have hjb : j < b := by omega
        obtain ⟨k, ha, hb⟩ := zip_tail_mem.mp hmem
        have hbmem : b ∈ sessionIdxs entries sid := mem_of_getElem?_some hb
        have hblen : b < entries.length := sessionIdxs_lt_length hbmem
        refine ⟨a, j, b, mem_of_getElem?_some ha, hbmem, by omega, hjb,
          getE entries j, getE_getElem? (by omega), ?_⟩
        rw [hjs]
        simpa using hpred
    · rintro ⟨i1, j, i2, h1, h2, hj1, hj2, x, hx, hxsid⟩
      have hjnot : j ∉ sessionIdxs entries sid := by
        intro hj
        obtain ⟨e, hje, hesid⟩ := mem_sessionIdxs.mp hj
        rw [hx] at hje
        have hex : x = e := by
          injection hje
        exact hxsid (hex ▸ hesid)
      unfold contiguityErrorsFor
      dsimp only
      have hlen : ¬ (sessionIdxs entries sid).length ≤ 1 := by
        intro hle
        cases hsl : sessionIdxs entries sid with
        | nil =>
          rw [hsl] at h1
          cases h1
        | cons z t =>
          cases t with
          | nil =>
            rw [hsl] at h1 h2
            simp at h1 h2
            omega
          | cons w t2 =>
            rw [hsl] at hle
            simp at hle
      rw [if_neg hlen]
      obtain ⟨aa, bb, hab, hja, hjb⟩ :=
        straddle _ (sessionIdxs_sorted entries sid) h1 h2 hj1 hj2 hjnot
      exact (contigScan_ne_nil_iff _).mpr
        ⟨(aa, bb), hab, by omega, gap_interleaved_ne_nil hab (by omega)⟩
  · intro entries sid
    unfold contiguityErrorsFor
    dsimp only
    split
    · simp
    · exact contigScan_length _
  · intro entries sid a b hfg
    unfold firstGap at hfg
    have hmem : (a, b) ∈ (sessionIdxs entries sid).zip (sessionIdxs entries sid).tail :=
      List.mem_of_find?_eq_some hfg
    have hgapb := List.find?_some hfg
    have hgap : b ≠ a + 1 := by simpa using hgapb
    refine ⟨?_, gap_interleaved_ne_nil hmem hgap⟩
    unfold contiguityErrorsFor
    dsimp only
    have hlen : ¬ (sessionIdxs entries sid).length ≤ 1 := by
      intro hle
      cases hsl : sessionIdxs entries sid with
      | nil =>
        rw [hsl] at hmem
        simp at hmem
      | cons z t =>
        cases t with
        | nil =>
          rw [hsl] at hmem
          simp at hmem
        | cons w t2 =>
          rw [hsl] at hle
          simp at hle
    rw [if_neg hlen]
    exact contigScan_of_find?_some _ a b
      (fun pq hpq hg => gap_interleaved_ne_nil hpq hg) hfg
  · intro entries sid hfg
    unfold firstGap at hfg
    unfold contiguityErrorsFor
    dsimp only
    split
    · rfl
    · exact contigScan_of_find?_none _ hfg
  · intro entries sid hle
    unfold contiguityErrorsFor
    dsimp only
    rw [if_pos hle]

/-- C6 witness: in the interleaved two-session log, session sA gets exactly
one `session-contiguous` error naming sB. -/
theorem C6_witness :
    contiguityErrorsFor interleavedEntries "sA" =
      [{ rule := "session-contiguous",
         msg := .sessionInterleaved "sA" ["sB"],
         specRef := "§3.1.4", entryIds := ["a1", "a2"] }] ∧
    contiguityErrorsFor interleavedEntries "sA" ≠ [] := by
  have h := C6_session_contiguity.2.2.1 interleavedEntries "sA" 0 2 (by decide)
  constructor
  · rw [h.1]
    decide
  · rw [h.1]
    decide

/-- One-session log with `session.start` in second position. -/
def misorderedStart : List AEFEntry :=
  [{ id := "m1", ts := 0, type := "message", sid := "s1" },
   { id := "st1", ts := 1, type := "session.start", sid := "s1" }]

/-- C2 witness: a session whose `session.start` is not first yields exactly
one `session-start-first` error and no `session-end-last` error. -/
theorem C2_witness :
    (boundaryErrorsFor misorderedStart "s1").countP
        (fun x => x.rule == "session-start-first") = 1 ∧
    (boundaryErrorsFor misorderedStart "s1").countP
        (fun x => x.rule == "session-end-last") = 0 := by
  have h := (C2_session_boundaries.1 misorderedStart "s1" 0 [1] (by decide))
  refine ⟨?_, ?_⟩
  · rw [h.1, if_pos (by decide)]
  · rw [h.2.1, if_neg (by decide)]

end AEF
